import Mathlib

/-!
Verification development for the ink-processing core of La-Math-ex
(`src/data/ink_processor.py`): the `Ink` data model, the InkML trace
parser `read_inkml_file`, and the geometry operations `get_bounding_box`,
`normalize_ink`, `stroke_count`, `point_count`.

Modelling conventions:
* Python floats are modelled as exact rationals (`ℚ`); arithmetic on
  coordinates is the field arithmetic of `ℚ`.
* A numpy stroke array of shape `(3, n)` is modelled as a `Stroke`
  holding its three rows `x`, `y`, `t` as lists.  `np.array((sx, sy, st))`
  succeeds exactly when the three rows have equal length; on ragged input
  numpy (≥ 1.24) raises `ValueError`, modelled as the error `valueError`.
* Python strings are processed as `List Char`; `str.split(sep)` for a
  one-character separator is `splitOnP (· = sep)`.
* `float(tok)` is modelled by `parseFloat` on the finite-decimal fragment
  (optional surrounding whitespace, optional sign, decimal digits with
  optional fraction and exponent).  The non-finite literals `inf`/`nan`
  and digit-group underscores are treated as unparseable, since the model
  works in exact rationals.
* Exceptions are modelled with `Except PyErr`.
-/

deriving instance DecidableEq for Except

attribute [local semireducible] Rat.mul Rat.add Rat.sub Rat.inv

/-- A Python exception kind observable from `read_inkml_file`. -/
inductive PyErr where
  /-- `FileNotFoundError`: the path does not exist. -/
  | fileNotFound
  /-- `ValueError`: raised for invalid InkML markup, and by numpy when
  `np.array` receives ragged rows. -/
  | valueError
  /-- `AttributeError`: raised by `None.split(',')` when a trace element
  has no text. -/
  | attributeError
deriving DecidableEq, Repr

/-- One stroke: the three rows of the numpy array of shape `(3, n)`,
in the order `(x, y, timestamp)`. -/
structure Stroke where
  x : List ℚ
  y : List ℚ
  t : List ℚ
deriving DecidableEq, Repr

/-- The `Ink` dataclass: every stroke of the ink, plus the metadata of the
InkML file.  The Python `annotations` dict (key = the `type` attribute as
returned by `attrib.get`, value = `element.text`) is modelled as an
insertion-ordered association list; both key and value are `Option String`
because `attrib.get` and `.text` can return `None`. -/
structure Ink where
  strokes : List Stroke
  annotations : List (Option String × Option String)
deriving DecidableEq, Repr

/-- An already-parsed XML element directly under the InkML root: its tag
(as produced by `ElementTree`, i.e. possibly namespace-qualified), its
attributes, and its text content (`none` when the element has no text). -/
structure XElem where
  tag : String
  attrib : List (String × String)
  text : Option String
deriving DecidableEq, Repr

/-- Python `dict.get k`: the value of the first (unique) binding of `k`. -/
def attribGet (l : List (String × String)) (k : String) : Option String :=
  (l.find? (fun p => p.1 = k)).map (fun p => p.2)

/-- Python dict assignment `d[k] = v`: overwrite the existing binding of
`k` in place, or append a new binding. -/
def dictInsert (d : List (Option String × Option String))
    (k v : Option String) : List (Option String × Option String) :=
  if d.any (fun p => p.1 = k) then
    d.map (fun p => if p.1 = k then (k, v) else p)
  else
    d ++ [(k, v)]

/-- Split a character list at every character satisfying `p`, keeping
empty chunks — the behaviour of Python `str.split(sep)` for a
single-character separator (`"".split(sep) = ['']`). -/
def splitOnP (p : Char → Bool) : List Char → List (List Char)
  | [] => [[]]
  | ch :: rest =>
    let r := splitOnP p rest
    if p ch then [] :: r
    else
      match r with
      | g :: gs => (ch :: g) :: gs
      | [] => [[ch]]

/-- The whitespace characters stripped by Python `float` (and used by
`str.split()` with no argument). -/
def isPyWs (c : Char) : Bool :=
  c = ' ' || c = '\t' || c = '\n' || c = '\r' || c = '\x0b' || c = '\x0c'

/-- Strip leading and trailing Python whitespace. -/
def pyStrip (cs : List Char) : List Char :=
  ((cs.dropWhile isPyWs).reverse.dropWhile isPyWs).reverse

/-- Value of a (nonempty, all-digit) character list as a natural number. -/
def natOfDigits (cs : List Char) : Nat :=
  cs.foldl (fun n c => 10 * n + (c.toNat - 48)) 0

/-- `10 ^ e` in `ℚ` for an integer exponent. -/
def tenPow (e : ℤ) : ℚ := (10 : ℚ) ^ e

/-- The optional exponent suffix of a float literal: empty means `e0`;
otherwise `e`/`E`, an optional sign, and a nonempty digit run. -/
def parseExpSuffix : List Char → Option ℤ
  | [] => some 0
  | c :: rest =>
    if c = 'e' || c = 'E' then
      match rest with
      | '+' :: ds =>
        if !ds.isEmpty && ds.all Char.isDigit then some (natOfDigits ds) else none
      | '-' :: ds =>
        if !ds.isEmpty && ds.all Char.isDigit then some (-(natOfDigits ds : ℤ)) else none
      | ds =>
        if !ds.isEmpty && ds.all Char.isDigit then some (natOfDigits ds) else none
    else none

/-- An unsigned float literal: digits, optional `.` and fraction digits
(at least one digit overall), optional exponent. -/
def parseUnsignedFloat (cs : List Char) : Option ℚ :=
  let s := cs.span Char.isDigit
  match s.2 with
  | '.' :: r2 =>
    let s2 := r2.span Char.isDigit
    if s.1.isEmpty && s2.1.isEmpty then none
    else
      (parseExpSuffix s2.2).map (fun e =>
        ((natOfDigits s.1 : ℚ) + (natOfDigits s2.1 : ℚ) / (10 : ℚ) ^ s2.1.length)
          * tenPow e)
  | r1 =>
    if s.1.isEmpty then none
    else (parseExpSuffix r1).map (fun e => (natOfDigits s.1 : ℚ) * tenPow e)

/-- Model of Python `float(tok)` on the finite-decimal fragment:
strip surrounding whitespace, optional sign, then an unsigned literal.
Returns `none` where Python raises `ValueError` (and also on the
non-finite literals `inf`/`nan`, which exact rationals cannot carry). -/
def parseFloat (tok : List Char) : Option ℚ :=
  match pyStrip tok with
  | [] => none
  | '+' :: rest => parseUnsignedFloat rest
  | '-' :: rest => (parseUnsignedFloat rest).map (fun q => -q)
  | cs => parseUnsignedFloat cs

/-- The parser state while scanning the children of the InkML root:
the strokes collected so far and the annotations dict. -/
abbrev ParserState := List Stroke × List (Option String × Option String)

/-- The per-trace accumulator `(stroke_x, stroke_y, stroke_t)`. -/
abbrev SegState := List ℚ × List ℚ × List ℚ

/-- One iteration of the point loop of `read_inkml_file`:
`x, y, t = point.split(' ')` (exactly three parts, else `ValueError`),
then `stroke_x.append(float(x)); stroke_y.append(float(y));
stroke_t.append(float(t))`.  A `ValueError` from the unpacking or from
any `float` call is caught and the loop continues — but appends already
performed before the failing `float` call stay, exactly as in the source. -/
def procSeg (s : SegState) (seg : List Char) : SegState :=
  match s with
  | (sx, sy, st) =>
    match splitOnP (fun ch => ch = ' ') seg with
    | [xs, ys, ts] =>
      match parseFloat xs with
      | none => (sx, sy, st)
      | some xv =>
        match parseFloat ys with
        | none => (sx ++ [xv], sy, st)
        | some yv =>
          match parseFloat ts with
          | none => (sx ++ [xv], sy ++ [yv], st)
          | some tv => (sx ++ [xv], sy ++ [yv], st ++ [tv])
    | _ => (sx, sy, st)

/-- The clean all-or-nothing reading of one comma-separated segment:
`some (x, y, t)` exactly when the segment splits on `' '` into three
parts that all parse as floats. -/
def pointOfSeg (seg : List Char) : Option (ℚ × ℚ × ℚ) :=
  match splitOnP (fun ch => ch = ' ') seg with
  | [xs, ys, ts] =>
    match parseFloat xs, parseFloat ys, parseFloat ts with
    | some xv, some yv, some tv => some (xv, yv, tv)
    | _, _, _ => none
  | _ => none

/-- The InkML namespace that `read_inkml_file` strips from tags. -/
def inkmlNs : List Char := "\x7bhttp://www.w3.org/2003/InkML\x7d".toList

/-- Python `str.removeprefix`: drop `pre` when it is a leading run of `s`,
else return `s` unchanged. -/
def removePre (s pre : List Char) : List Char :=
  if pre.isPrefixOf s then s.drop pre.length else s

/-- `element.tag.removeprefix('{http://www.w3.org/2003/InkML}')`. -/
def stripNs (tag : String) : String :=
  String.mk (removePre tag.toList inkmlNs)

/-- The body of the `for element in root` loop of `read_inkml_file`,
acting on one element.  An annotation element updates the dict with key
`element.attrib.get('type')` and value `element.text`.  A trace element
with no text raises `AttributeError` (`None.split(',')`); otherwise its
text is split on `','` and fed through the point loop, and the stroke is
stored when all three rows are nonempty — `np.array` then requires the
rows to be rectangular, raising `ValueError` (numpy ≥ 1.24) when the
partial appends of `procSeg` left them ragged. -/
def procElem (st : ParserState) (e : XElem) : Except PyErr ParserState :=
  match st with
  | (strokes, annots) =>
    let tagName := stripNs e.tag
    if tagName = "annotation" then
      .ok (strokes, dictInsert annots (attribGet e.attrib "type") e.text)
    else if tagName = "trace" then
      match e.text with
      | none => .error .attributeError
      | some txt =>
        match (splitOnP (fun ch => ch = ',') txt.toList).foldl procSeg ([], [], []) with
        | (sx, sy, stt) =>
          if !sx.isEmpty && !sy.isEmpty && !stt.isEmpty then
            if sx.length = sy.length ∧ sy.length = stt.length then
              .ok (strokes ++ [⟨sx, sy, stt⟩], annots)
            else .error .valueError
          else .ok (strokes, annots)
    else .ok (strokes, annots)

/-- The element loop of `read_inkml_file` over the children of the root,
packaged into the resulting `Ink`. -/
def readInkmlRoot (elems : List XElem) : Except PyErr Ink :=
  match elems.foldlM procElem (([], []) : ParserState) with
  | .error e => .error e
  | .ok (strokes, annots) => .ok ⟨strokes, annots⟩

/-- `InkProcessor.read_inkml_file`.  The file system composed with
`ElementTree.fromstring` is abstracted as `fs`: `fs path = none` means
the path does not exist (`os.path.exists` is false), `fs path = some none`
means the content is not well-formed XML (`ElementTree.ParseError`, turned
into `ValueError`), and `fs path = some (some elems)` gives the children
of the parsed root. -/
def read_inkml_file (fs : String → Option (Option (List XElem)))
    (filename : String) : Except PyErr Ink :=
  match fs filename with
  | none => .error .fileNotFound
  | some none => .error .valueError
  | some (some elems) => readInkmlRoot elems

/-- The list `all_x` built by `get_bounding_box`: the x coordinates of
every point of every stroke, in order. -/
def all_x (ink : Ink) : List ℚ := (ink.strokes.map Stroke.x).flatten

/-- The list `all_y` built by `get_bounding_box`. -/
def all_y (ink : Ink) : List ℚ := (ink.strokes.map Stroke.y).flatten

/-- `InkProcessor.get_bounding_box`: `none` when there are no strokes,
else `(min all_x, min all_y, max all_x, max all_y)`.  Python `min`/`max`
on an empty list raise `ValueError`; that can only happen when a stroke
row is empty, which the parser never produces. -/
def get_bounding_box (ink : Ink) : Except PyErr (Option (ℚ × ℚ × ℚ × ℚ)) :=
  if ink.strokes.isEmpty then .ok none
  else
    match all_x ink, all_y ink with
    | x :: xs, y :: ys =>
      .ok (some (xs.foldl min x, ys.foldl min y, xs.foldl max x, ys.foldl max y))
    | _, _ => .error .valueError

/-- `InkProcessor.normalize_ink`: no-op on empty ink or degenerate
bounding box, else translate by `(min_x, min_y)` and scale uniformly by
`min(target_w / width, target_h / height)`, leaving timestamps as they
are; the result's annotations dict is `ink.annotations.copy()`, which is
value-equal to the input's. -/
def normalize_ink (ink : Ink) (target_size : ℚ × ℚ) : Except PyErr Ink :=
  if ink.strokes.isEmpty then .ok ink
  else
    match get_bounding_box ink with
    | .error e => .error e
    | .ok none => .ok ink
    | .ok (some (min_x, min_y, max_x, max_y)) =>
      let width := max_x - min_x
      let height := max_y - min_y
      if width = 0 ∨ height = 0 then .ok ink
      else
        let scale_x := target_size.1 / width
        let scale_y := target_size.2 / height
        let scale := min scale_x scale_y
        .ok { strokes := ink.strokes.map (fun stroke =>
                { x := stroke.x.map (fun v => (v - min_x) * scale),
                  y := stroke.y.map (fun v => (v - min_y) * scale),
                  t := stroke.t }),
              annotations := ink.annotations }

/-- `InkProcessor.stroke_count`. -/
def stroke_count (ink : Ink) : Nat := ink.strokes.length

/-- `InkProcessor.point_count`: the sum of `stroke.shape[1]` over the
strokes; for a rectangular `(3, n)` array, `shape[1]` is the length of
the `x` row. -/
def point_count (ink : Ink) : Nat :=
  (ink.strokes.map (fun s => s.x.length)).sum

/-- Claim C3's own description of segment parsing, formalised from the
spec words: the segment is "split on whitespace into exactly three numeric
tokens" (Python `str.split()` with no argument: split on whitespace runs,
no empty tokens). -/
def specPointOfSeg (seg : List Char) : Option (ℚ × ℚ × ℚ) :=
  match (splitOnP isPyWs seg).filter (fun tk => !tk.isEmpty) with
  | [xs, ys, ts] =>
    match parseFloat xs, parseFloat ys, parseFloat ts with
    | some xv, some yv, some tv => some (xv, yv, tv)
    | _, _, _ => none
  | _ => none

/-- Claim C3's description of a whole trace: every comma-separated segment
that fails to parse is skipped and exactly the surviving points form the
stroke (no stroke when none survive). -/
def specStrokeOfTrace (txt : List Char) : Option Stroke :=
  let pts := (splitOnP (fun ch => ch = ',') txt).filterMap specPointOfSeg
  if pts.isEmpty then none
  else some ⟨pts.map (fun p => p.1), pts.map (fun p => p.2.1), pts.map (fun p => p.2.2)⟩

/-- Witness ink: one stroke with corners `(0,0)` and `(4,2)`. -/
def inkC1 : Ink := ⟨[⟨[0, 4], [0, 2], [0, 1]⟩], [(some "label", some "x")]⟩

/-- The ink of spec property P5: strokes `[(0,0),(4,2)]` and `[(1,5),(3,1)]`. -/
def inkC2 : Ink := ⟨[⟨[0, 4], [0, 2], [0, 1]⟩, ⟨[1, 3], [5, 1], [0, 1]⟩], []⟩

/-- The ink of spec property P6: a single stroke whose points all share
the same `x` (zero-width bounding box). -/
def inkC4 : Ink := ⟨[⟨[1, 1], [0, 2], [0, 1]⟩], []⟩

/-- The ink of spec property P7: bounding box of width `100` and height
`50`. -/
def inkP7 : Ink := ⟨[⟨[0, 100], [0, 50], [0, 1]⟩], []⟩

/-- A file system for the C7 evaluation: `sample.inkml` holds a
well-formed document whose single trace element has no text content
(`<trace/>`); no other path exists. -/
def fsC7 : String → Option (Option (List XElem)) := fun p =>
  if p = "sample.inkml" then some (some [⟨"trace", [], none⟩]) else none

/-! ### Helper lemmas about `List.foldl min` / `List.foldl max` -/

lemma foldl_min_le_self (l : List ℚ) : ∀ a : ℚ, l.foldl min a ≤ a := by
  induction l with
  | nil => intro a; exact le_refl a
  | cons b l ih =>
    intro a
    calc l.foldl min (min a b) ≤ min a b := ih (min a b)
    _ ≤ a := min_le_left a b

lemma foldl_min_le_mem (l : List ℚ) : ∀ a : ℚ, ∀ v ∈ l, l.foldl min a ≤ v := by
  induction l with
  | nil => intro a v hv; cases hv
  | cons b l ih =>
    intro a v hv
    rcases List.mem_cons.mp hv with h | h
    · subst h
      calc l.foldl min (min a v) ≤ min a v := foldl_min_le_self l (min a v)
      _ ≤ v := min_le_right a v
    · exact ih (min a b) v h

lemma foldl_min_mem (l : List ℚ) : ∀ a : ℚ, l.foldl min a = a ∨ l.foldl min a ∈ l := by
  induction l with
  | nil => intro a; exact Or.inl rfl
  | cons b l ih =>
    intro a
    rcases ih (min a b) with h | h
    · rcases min_choice a b with hm | hm
      · exact Or.inl (by rw [List.foldl_cons, h, hm])
      · exact Or.inr (by rw [List.foldl_cons, h, hm]; exact List.mem_cons_self b l)
    · exact Or.inr (List.mem_cons_of_mem b h)

lemma le_foldl_max_self (l : List ℚ) : ∀ a : ℚ, a ≤ l.foldl max a := by
  induction l with
  | nil => intro a; exact le_refl a
  | cons b l ih =>
    intro a
    calc a ≤ max a b := le_max_left a b
    _ ≤ l.foldl max (max a b) := ih (max a b)

lemma mem_le_foldl_max (l : List ℚ) : ∀ a : ℚ, ∀ v ∈ l, v ≤ l.foldl max a := by
  induction l with
  | nil => intro a v hv; cases hv
  | cons b l ih =>
    intro a v hv
    rcases List.mem_cons.mp hv with h | h
    · subst h
      calc v ≤ max a v := le_max_right a v
      _ ≤ l.foldl max (max a v) := le_foldl_max_self l (max a v)
    · exact ih (max a b) v h

lemma foldl_max_mem (l : List ℚ) : ∀ a : ℚ, l.foldl max a = a ∨ l.foldl max a ∈ l := by
  induction l with
  | nil => intro a; exact Or.inl rfl
  | cons b l ih =>
    intro a
    rcases ih (max a b) with h | h
    · rcases max_choice a b with hm | hm
      · exact Or.inl (by rw [List.foldl_cons, h, hm])
      · exact Or.inr (by rw [List.foldl_cons, h, hm]; exact List.mem_cons_self b l)
    · exact Or.inr (List.mem_cons_of_mem b h)

lemma foldl_min_map (f : ℚ → ℚ) (hf : ∀ p q, f (min p q) = min (f p) (f q))
    (l : List ℚ) : ∀ a : ℚ, (l.map f).foldl min (f a) = f (l.foldl min a) := by
  induction l with
  | nil => intro a; rfl
  | cons b l ih =>
    intro a
    simp only [List.map_cons, List.foldl_cons, ← hf a b]
    exact ih (min a b)

lemma foldl_max_map (f : ℚ → ℚ) (hf : ∀ p q, f (max p q) = max (f p) (f q))
    (l : List ℚ) : ∀ a : ℚ, (l.map f).foldl max (f a) = f (l.foldl max a) := by
  induction l with
  | nil => intro a; rfl
  | cons b l ih =>
    intro a
    simp only [List.map_cons, List.foldl_cons, ← hf a b]
    exact ih (max a b)

lemma sub_mul_min_hom (a s : ℚ) (hs : 0 ≤ s) (p q : ℚ) :
    (min p q - a) * s = min ((p - a) * s) ((q - a) * s) := by
  rcases le_total p q with h | h
  · rw [min_eq_left h, min_eq_left (mul_le_mul_of_nonneg_right (by linarith) hs)]
  · rw [min_eq_right h, min_eq_right (mul_le_mul_of_nonneg_right (by linarith) hs)]

lemma sub_mul_max_hom (a s : ℚ) (hs : 0 ≤ s) (p q : ℚ) :
    (max p q - a) * s = max ((p - a) * s) ((q - a) * s) := by
  rcases le_total p q with h | h
  · rw [max_eq_right h, max_eq_right (mul_le_mul_of_nonneg_right (by linarith) hs)]
  · rw [max_eq_left h, max_eq_left (mul_le_mul_of_nonneg_right (by linarith) hs)]

/-! ### Helper lemmas about the parsing loops -/

lemma foldlM_procElem_inv {P : ParserState → Prop} :
    ∀ (elems : List XElem) (st st' : ParserState),
      elems.foldlM procElem st = .ok st' →
      P st →
      (∀ s e s', e ∈ elems → procElem s e = .ok s' → P s → P s') →
      P st' := by
  intro elems
  induction elems with
  | nil =>
    intro st st' h hP _
    simp only [List.foldlM_nil, pure] at h
    cases h
    exact hP
  | cons e es ih =>
    intro st st' h hP hstep
    rw [List.foldlM_cons] at h
    cases he : procElem st e with
    | error err => rw [he] at h; simp [Bind.bind, Except.bind] at h
    | ok st1 =>
      rw [he] at h
      simp only [Bind.bind, Except.bind] at h
      exact ih st1 st' h
        (hstep st e st1 (List.mem_cons_self e es) he hP)
        (fun s el s' hel => hstep s el s' (List.mem_cons_of_mem e hel))

lemma procSeg_t (s : SegState) (seg : List Char) :
    (procSeg s seg).2.2 = s.2.2 ++ ((pointOfSeg seg).map (fun p => p.2.2)).toList := by
  obtain ⟨sx, sy, st⟩ := s
  simp only [procSeg, pointOfSeg]
  split
  next xs ys ts heq =>
    cases hx : parseFloat xs <;> cases hy : parseFloat ys <;> cases ht : parseFloat ts <;>
      simp [hx, hy, ht]
  next hne => simp

lemma foldl_procSeg_t_none (segs : List (List Char))
    (h : ∀ seg ∈ segs, pointOfSeg seg = none) :
    ∀ s : SegState, (segs.foldl procSeg s).2.2 = s.2.2 := by
  induction segs with
  | nil => intro s; rfl
  | cons seg segs ih =>
    intro s
    rw [List.foldl_cons, ih (fun sg hsg => h sg (List.mem_cons_of_mem seg hsg)),
      procSeg_t, h seg (List.mem_cons_self seg segs)]
    simp

lemma dictInsert_mem (d : List (Option String × Option String))
    (k v : Option String) (kv : Option String × Option String)
    (h : kv ∈ dictInsert d k v) : kv = (k, v) ∨ kv ∈ d := by
  unfold dictInsert at h
  split at h
  · rcases List.mem_map.mp h with ⟨p, hp, hpe⟩
    by_cases hk : p.1 = k
    · rw [if_pos hk] at hpe; exact Or.inl hpe.symm
    · rw [if_neg hk] at hpe; exact Or.inr (hpe ▸ hp)
  · rcases List.mem_append.mp h with h1 | h1
    · exact Or.inr h1
    · rcases List.mem_singleton.mp h1 with h2
      exact Or.inl h2

/-! ### Helper lemmas about the geometry engine -/

lemma get_bounding_box_inv (ink : Ink) (a b c d : ℚ)
    (h : get_bounding_box ink = .ok (some (a, b, c, d))) :
    ∃ x xs y ys, all_x ink = x :: xs ∧ all_y ink = y :: ys ∧
      a = xs.foldl min x ∧ b = ys.foldl min y ∧
      c = xs.foldl max x ∧ d = ys.foldl max y := by
  unfold get_bounding_box at h
  by_cases he : ink.strokes.isEmpty
  · rw [if_pos he] at h; simp at h
  · rw [if_neg he] at h
    rcases hax : all_x ink with _ | ⟨x, xs⟩ <;>
      rcases hay : all_y ink with _ | ⟨y, ys⟩ <;> rw [hax, hay] at h <;> simp at h
    exact ⟨x, xs, y, ys, rfl, rfl, h.1.symm, h.2.1.symm, h.2.2.1.symm, h.2.2.2.symm⟩

lemma strokes_nonempty_of_bbox (ink : Ink) (a b c d : ℚ)
    (h : get_bounding_box ink = .ok (some (a, b, c, d))) :
    ink.strokes.isEmpty = false := by
  rcases hstrokes : ink.strokes.isEmpty
  · rfl
  · exfalso
    unfold get_bounding_box at h
    rw [if_pos hstrokes] at h
    simp at h

lemma normalize_ink_eq (ink : Ink) (tw th a b c d : ℚ)
    (hbb : get_bounding_box ink = .ok (some (a, b, c, d)))
    (hw : c - a ≠ 0) (hh : d - b ≠ 0) :
    normalize_ink ink (tw, th) = .ok
      { strokes := ink.strokes.map (fun stroke =>
          { x := stroke.x.map (fun v => (v - a) * min (tw / (c - a)) (th / (d - b))),
            y := stroke.y.map (fun v => (v - b) * min (tw / (c - a)) (th / (d - b))),
            t := stroke.t }),
        annotations := ink.annotations } := by
  have hne := strokes_nonempty_of_bbox ink a b c d hbb
  simp only [normalize_ink, hne, Bool.false_eq_true, if_false, hbb]
  rw [if_neg (by push_neg; exact ⟨hw, hh⟩)]

lemma all_x_map_strokes (strokes : List Stroke) (f g : ℚ → ℚ)
    (an : List (Option String × Option String)) :
    all_x ⟨strokes.map (fun s => ⟨s.x.map f, s.y.map g, s.t⟩), an⟩ =
      (all_x ⟨strokes, an⟩).map f := by
  simp only [all_x, List.map_map, List.map_flatten]
  rfl

lemma all_y_map_strokes (strokes : List Stroke) (f g : ℚ → ℚ)
    (an : List (Option String × Option String)) :
    all_y ⟨strokes.map (fun s => ⟨s.x.map f, s.y.map g, s.t⟩), an⟩ =
      (all_y ⟨strokes, an⟩).map g := by
  simp only [all_y, List.map_map, List.map_flatten]
  rfl

/-! ### Claim theorems -/

/-- Claim C1: for every ink with at least one stroke and a bounding box of
nonzero width and nonzero height, and every target `(tw, th)`,
`normalize_ink` produces a new ink whose scale factor is
`min (tw / width) (th / height)`, in which every `x` becomes
`(x - min_x) * scale`, every `y` becomes `(y - min_y) * scale`, every
timestamp is unchanged, and whose annotations mapping equals (a copy of)
the input's. -/
theorem normalize_ink_formula (ink : Ink) (tw th a b c d : ℚ)
    (hbb : get_bounding_box ink = .ok (some (a, b, c, d)))
    (hw : c - a ≠ 0) (hh : d - b ≠ 0) :
    normalize_ink ink (tw, th) = .ok
      { strokes := ink.strokes.map (fun stroke =>
          { x := stroke.x.map (fun v => (v - a) * min (tw / (c - a)) (th / (d - b))),
            y := stroke.y.map (fun v => (v - b) * min (tw / (c - a)) (th / (d - b))),
            t := stroke.t }),
        annotations := ink.annotations } :=
  normalize_ink_eq ink tw th a b c d hbb hw hh

/-- Witness for C1 at the concrete ink `inkC1` (bounding box `(0,0,4,2)`)
and target `(2, 2)`: the scale is `min (2/4) (2/2) = 1/2`. -/
theorem normalize_ink_formula_witness :
    get_bounding_box inkC1 = .ok (some (0, 0, 4, 2)) ∧
    normalize_ink inkC1 (2, 2) =
      .ok ⟨[⟨[0, 2], [0, 1], [0, 1]⟩], [(some "label", some "x")]⟩ := by
  refine ⟨by decide, ?_⟩
  rw [normalize_ink_formula inkC1 2 2 0 0 4 2 (by decide) (by decide) (by decide)]
  decide

/-- Claim C4: for every ink whose strokes list is empty, or whose bounding
box has zero width or zero height, `normalize_ink` returns the input ink
itself, for every target size. -/
theorem normalize_ink_noop (ink : Ink) (ts : ℚ × ℚ)
    (h : ink.strokes = [] ∨
      ∃ a b c d, get_bounding_box ink = .ok (some (a, b, c, d)) ∧
        (c - a = 0 ∨ d - b = 0)) :
    normalize_ink ink ts = .ok ink := by
  rcases h with h | ⟨a, b, c, d, hbb, hdeg⟩
  · unfold normalize_ink
    rw [if_pos (by rw [h]; rfl)]
  · have hne := strokes_nonempty_of_bbox ink a b c d hbb
    simp only [normalize_ink, hne, Bool.false_eq_true, if_false, hbb]
    rw [if_pos hdeg]

/-- Witness for C4 at the concrete ink `inkC4`, whose single stroke has
all points at `x = 1` (zero-width bounding box `(1,0,1,2)`). -/
theorem normalize_ink_noop_witness :
    normalize_ink inkC4 (256, 256) = .ok inkC4 :=
  normalize_ink_noop inkC4 (256, 256)
    (Or.inr ⟨1, 0, 1, 2, by decide, Or.inl (by decide)⟩)

/-- Claim C8: whenever `normalize_ink` returns an ink, that ink has the
same `stroke_count` and the same `point_count` as the input — normalization
changes coordinates, never cardinality. -/
theorem normalize_ink_counts (ink : Ink) (ts : ℚ × ℚ) (ink' : Ink)
    (h : normalize_ink ink ts = .ok ink') :
    stroke_count ink' = stroke_count ink ∧ point_count ink' = point_count ink := by
  unfold normalize_ink at h
  split at h
  · cases h; exact ⟨rfl, rfl⟩
  · split at h
    next e heq => cases h
    next heq => cases h; exact ⟨rfl, rfl⟩
    next mnx mny mxx mxy heq =>
      dsimp only at h
      by_cases hdeg : mxx - mnx = 0 ∨ mxy - mny = 0
      · rw [if_pos hdeg] at h; cases h; exact ⟨rfl, rfl⟩
      · rw [if_neg hdeg] at h
        cases h
        refine ⟨by simp [stroke_count], ?_⟩
        simp [point_count, List.map_map, Function.comp_def, List.length_map]

/-- Witness for C8: normalizing `inkC1` to `(2, 2)` keeps one stroke and
two points. -/
theorem normalize_ink_counts_witness :
    stroke_count ⟨[⟨[0, 2], [0, 1], [0, 1]⟩], [(some "label", some "x")]⟩ =
      stroke_count inkC1 ∧
    point_count ⟨[⟨[0, 2], [0, 1], [0, 1]⟩], [(some "label", some "x")]⟩ =
      point_count inkC1 :=
  normalize_ink_counts inkC1 (2, 2) _ (by decide)

lemma get_bounding_box_of_cons (ink : Ink) (x : ℚ) (xs : List ℚ) (y : ℚ) (ys : List ℚ)
    (hne : ink.strokes.isEmpty = false)
    (hax : all_x ink = x :: xs) (hay : all_y ink = y :: ys) :
    get_bounding_box ink =
      .ok (some (xs.foldl min x, ys.foldl min y, xs.foldl max x, ys.foldl max y)) := by
  unfold get_bounding_box
  rw [hax, hay]
  simp [hne]

lemma mem_all_x (ink : Ink) (s : Stroke) (hs : s ∈ ink.strokes)
    (v : ℚ) (hv : v ∈ s.x) : v ∈ all_x ink := by
  simp only [all_x, List.mem_flatten]
  exact ⟨s.x, List.mem_map_of_mem Stroke.x hs, hv⟩

/-- Claim C2: `get_bounding_box` returns `none` exactly on an empty strokes
list, and otherwise the 4-tuple `(min_x, min_y, max_x, max_y)` over all
points of all strokes (for inks respecting the data-model invariant that
every stroke has at least one point); on the two strokes with points
`(0,0),(4,2)` and `(1,5),(3,1)` it returns `(0, 0, 4, 5)`. -/
theorem get_bounding_box_spec (ink : Ink)
    (hwf : ∀ s ∈ ink.strokes, s.x ≠ [] ∧ s.y ≠ []) :
    (ink.strokes = [] → get_bounding_box ink = .ok none) ∧
    (ink.strokes ≠ [] →
      ∃ a b c d, get_bounding_box ink = .ok (some (a, b, c, d)) ∧
        a ∈ all_x ink ∧ (∀ v ∈ all_x ink, a ≤ v) ∧
        b ∈ all_y ink ∧ (∀ v ∈ all_y ink, b ≤ v) ∧
        c ∈ all_x ink ∧ (∀ v ∈ all_x ink, v ≤ c) ∧
        d ∈ all_y ink ∧ (∀ v ∈ all_y ink, v ≤ d)) ∧
    get_bounding_box inkC2 = .ok (some (0, 0, 4, 5)) := by
  refine ⟨?_, ?_, by decide⟩
  · intro h
    unfold get_bounding_box
    rw [if_pos (by rw [h]; rfl)]
  · intro hne
    rcases hstrokes : ink.strokes with _ | ⟨s0, rest⟩
    · exact absurd hstrokes hne
    obtain ⟨hx0, hy0⟩ := hwf s0 (by rw [hstrokes]; exact List.mem_cons_self s0 rest)
    rcases hsx : s0.x with _ | ⟨u, us⟩
    · exact absurd hsx hx0
    rcases hsy : s0.y with _ | ⟨w, ws⟩
    · exact absurd hsy hy0
    have hax : all_x ink = u :: (us ++ (rest.map Stroke.x).flatten) := by
      simp [all_x, hstrokes, hsx]
    have hay : all_y ink = w :: (ws ++ (rest.map Stroke.y).flatten) := by
      simp [all_y, hstrokes, hsy]
    have hgb := get_bounding_box_of_cons ink u _ w _ (by rw [hstrokes]; rfl) hax hay
    refine ⟨_, _, _, _, hgb, ?_, ?_, ?_, ?_, ?_, ?_, ?_, ?_⟩
    · rw [hax]
      rcases foldl_min_mem (us ++ (rest.map Stroke.x).flatten) u with h | h
      · rw [h]; exact List.mem_cons_self _ _
      · exact List.mem_cons_of_mem _ h
    · intro v hv
      rw [hax] at hv
      rcases List.mem_cons.mp hv with h | h
      · rw [h]; exact foldl_min_le_self _ u
      · exact foldl_min_le_mem _ u v h
    · rw [hay]
      rcases foldl_min_mem (ws ++ (rest.map Stroke.y).flatten) w with h | h
      · rw [h]; exact List.mem_cons_self _ _
      · exact List.mem_cons_of_mem _ h
    · intro v hv
      rw [hay] at hv
      rcases List.mem_cons.mp hv with h | h
      · rw [h]; exact foldl_min_le_self _ w
      · exact foldl_min_le_mem _ w v h
    · rw [hax]
      rcases foldl_max_mem (us ++ (rest.map Stroke.x).flatten) u with h | h
      · rw [h]; exact List.mem_cons_self _ _
      · exact List.mem_cons_of_mem _ h
    · intro v hv
      rw [hax] at hv
      rcases List.mem_cons.mp hv with h | h
      · rw [h]; exact le_foldl_max_self _ u
      · exact mem_le_foldl_max _ u v h
    · rw [hay]
      rcases foldl_max_mem (ws ++ (rest.map Stroke.y).flatten) w with h | h
      · rw [h]; exact List.mem_cons_self _ _
      · exact List.mem_cons_of_mem _ h
    · intro v hv
      rw [hay] at hv
      rcases List.mem_cons.mp hv with h | h
      · rw [h]; exact le_foldl_max_self _ w
      · exact mem_le_foldl_max _ w v h

/-- Witness for C2 at the P5 ink `inkC2`. -/
theorem get_bounding_box_spec_witness :
    (∀ s ∈ inkC2.strokes, s.x ≠ [] ∧ s.y ≠ []) ∧
    get_bounding_box inkC2 = .ok (some (0, 0, 4, 5)) :=
  ⟨by decide, (get_bounding_box_spec inkC2 (by decide)).2.2⟩

/-- Claim C10: for every ink with a nondegenerate bounding box and every
positive target, the normalized ink's bounding box starts at `(0, 0)`,
its width `(max_x - min_x) * scale` and height `(max_y - min_y) * scale`
do not exceed the target, and the dimension that realizes the minimum in
the scale factor exactly equals its target. -/
theorem normalize_ink_fits (ink : Ink) (tw th a b c d : ℚ)
    (hbb : get_bounding_box ink = .ok (some (a, b, c, d)))
    (hw : c - a ≠ 0) (hh : d - b ≠ 0) (htw : 0 < tw) (hth : 0 < th) :
    ∃ ink', normalize_ink ink (tw, th) = .ok ink' ∧
      get_bounding_box ink' =
        .ok (some (0, 0, (c - a) * min (tw / (c - a)) (th / (d - b)),
          (d - b) * min (tw / (c - a)) (th / (d - b)))) ∧
      (c - a) * min (tw / (c - a)) (th / (d - b)) ≤ tw ∧
      (d - b) * min (tw / (c - a)) (th / (d - b)) ≤ th ∧
      ((c - a) * min (tw / (c - a)) (th / (d - b)) = tw ∨
        (d - b) * min (tw / (c - a)) (th / (d - b)) = th) := by
  obtain ⟨x, xs, y, ys, hax, hay, ha, hb, hc, hd⟩ := get_bounding_box_inv ink a b c d hbb
  have hac : a ≤ c := by
    rw [ha, hc]; exact le_trans (foldl_min_le_self xs x) (le_foldl_max_self xs x)
  have hbd : b ≤ d := by
    rw [hb, hd]; exact le_trans (foldl_min_le_self ys y) (le_foldl_max_self ys y)
  have hwpos : 0 < c - a := lt_of_le_of_ne (by linarith) (Ne.symm hw)
  have hhpos : 0 < d - b := lt_of_le_of_ne (by linarith) (Ne.symm hh)
  have hspos : 0 < min (tw / (c - a)) (th / (d - b)) :=
    lt_min (div_pos htw hwpos) (div_pos hth hhpos)
  refine ⟨_, normalize_ink_eq ink tw th a b c d hbb hw hh, ?_, ?_, ?_, ?_⟩
  · have hne2 : (ink.strokes.map (fun stroke =>
        ({ x := stroke.x.map (fun v => (v - a) * min (tw / (c - a)) (th / (d - b))),
           y := stroke.y.map (fun v => (v - b) * min (tw / (c - a)) (th / (d - b))),
           t := stroke.t } : Stroke))).isEmpty = false := by
      rw [List.isEmpty_eq_false] at *
      intro hmap
      exact (List.isEmpty_eq_false.mp (strokes_nonempty_of_bbox ink a b c d hbb))
        (List.map_eq_nil_iff.mp hmap)
    have hax2 : all_x ⟨ink.strokes.map (fun stroke =>
        { x := stroke.x.map (fun v => (v - a) * min (tw / (c - a)) (th / (d - b))),
          y := stroke.y.map (fun v => (v - b) * min (tw / (c - a)) (th / (d - b))),
          t := stroke.t }), ink.annotations⟩ =
        ((x - a) * min (tw / (c - a)) (th / (d - b))) ::
          xs.map (fun v => (v - a) * min (tw / (c - a)) (th / (d - b))) := by
      rw [all_x_map_strokes]
      show (all_x ink).map _ = _
      rw [hax, List.map_cons]
    have hay2 : all_y ⟨ink.strokes.map (fun stroke =>
        { x := stroke.x.map (fun v => (v - a) * min (tw / (c - a)) (th / (d - b))),
          y := stroke.y.map (fun v => (v - b) * min (tw / (c - a)) (th / (d - b))),
          t := stroke.t }), ink.annotations⟩ =
        ((y - b) * min (tw / (c - a)) (th / (d - b))) ::
          ys.map (fun v => (v - b) * min (tw / (c - a)) (th / (d - b))) := by
      rw [all_y_map_strokes]
      show (all_y ink).map _ = _
      rw [hay, List.map_cons]
    rw [get_bounding_box_of_cons _ _ _ _ _ hne2 hax2 hay2]
    have hminf := foldl_min_map (fun v => (v - a) * min (tw / (c - a)) (th / (d - b)))
      (fun p q => sub_mul_min_hom a _ hspos.le p q) xs x
    have hmaxf := foldl_max_map (fun v => (v - a) * min (tw / (c - a)) (th / (d - b)))
      (fun p q => sub_mul_max_hom a _ hspos.le p q) xs x
    have hming := foldl_min_map (fun v => (v - b) * min (tw / (c - a)) (th / (d - b)))
      (fun p q => sub_mul_min_hom b _ hspos.le p q) ys y
    have hmaxg := foldl_max_map (fun v => (v - b) * min (tw / (c - a)) (th / (d - b)))
      (fun p q => sub_mul_max_hom b _ hspos.le p q) ys y
    rw [hminf, hmaxf, hming, hmaxg, ← ha, ← hb, ← hc, ← hd, sub_self, sub_self,
      zero_mul]
  · calc (c - a) * min (tw / (c - a)) (th / (d - b))
        ≤ (c - a) * (tw / (c - a)) :=
          mul_le_mul_of_nonneg_left (min_le_left _ _) hwpos.le
    _ = tw := by rw [mul_comm]; exact div_mul_cancel₀ tw hw
  · calc (d - b) * min (tw / (c - a)) (th / (d - b))
        ≤ (d - b) * (th / (d - b)) :=
          mul_le_mul_of_nonneg_left (min_le_right _ _) hhpos.le
    _ = th := by rw [mul_comm]; exact div_mul_cancel₀ th hh
  · rcases min_cases (tw / (c - a)) (th / (d - b)) with ⟨hmin, _⟩ | ⟨hmin, _⟩
    · left
      rw [hmin, mul_comm]
      exact div_mul_cancel₀ tw hw
    · right
      rw [hmin, mul_comm]
      exact div_mul_cancel₀ th hh

/-- Witness for C10 at the P7 ink `inkP7` (bounding box width `100`,
height `50`) and target `(256, 256)`: the scale is `2.56`, the resulting
bounding box is `(0, 0, 256, 128)`, and the width exactly meets the
target. -/
theorem normalize_ink_fits_witness :
    normalize_ink inkP7 (256, 256) = .ok ⟨[⟨[0, 256], [0, 128], [0, 1]⟩], []⟩ ∧
    get_bounding_box ⟨[⟨[0, 256], [0, 128], [0, 1]⟩], []⟩ = .ok (some (0, 0, 256, 128)) := by
  obtain ⟨ink', h1, h2, h3, h4, h5⟩ :=
    normalize_ink_fits inkP7 256 256 0 0 100 50 (by decide) (by decide) (by decide)
      (by decide) (by decide)
  have hink' : ink' = ⟨[⟨[0, 256], [0, 128], [0, 1]⟩], []⟩ := by
    have := h1.symm.trans (by decide :
      normalize_ink inkP7 (256, 256) = .ok ⟨[⟨[0, 256], [0, 128], [0, 1]⟩], []⟩)
    exact Except.ok.inj this
  constructor
  · rw [← hink']; exact h1
  · rw [← hink']
    rw [h2]
    decide

/-- Claim C6: every ink produced by the trace parser satisfies the stroke
invariant — each stored stroke has equal-length `x`, `y`, `timestamp` rows
and at least one point — and a trace element none of whose segments parses
as a complete point contributes no stroke at all (the parser state is
returned unchanged), never a zero-length stroke. -/
theorem read_inkml_stroke_invariant :
    (∀ (elems : List XElem) (ink : Ink), readInkmlRoot elems = .ok ink →
      ∀ s ∈ ink.strokes,
        s.x.length = s.y.length ∧ s.y.length = s.t.length ∧ s.x ≠ []) ∧
    (∀ (st : ParserState) (e : XElem) (txt : String),
      stripNs e.tag = "trace" → e.text = some txt →
      (∀ seg ∈ splitOnP (fun ch => ch = ',') txt.toList, pointOfSeg seg = none) →
      procElem st e = .ok st) := by
  constructor
  · intro elems ink hok s hs
    unfold readInkmlRoot at hok
    cases hfold : elems.foldlM procElem (([], []) : ParserState) with
    | error e => rw [hfold] at hok; cases hok
    | ok stf =>
      rw [hfold] at hok
      obtain ⟨strokes, annots⟩ := stf
      cases hok
      refine foldlM_procElem_inv (P := fun st => ∀ s ∈ st.1,
          s.x.length = s.y.length ∧ s.y.length = s.t.length ∧ s.x ≠ [])
        elems ([], []) (strokes, annots) hfold ?_ ?_ s hs
      · intro s2 hs2; cases hs2
      · intro s1 e s2 hmem hproc hP
        obtain ⟨strokes1, annots1⟩ := s1
        unfold procElem at hproc
        dsimp only at hproc
        by_cases htag : stripNs e.tag = "annotation"
        · rw [if_pos htag] at hproc
          cases hproc
          exact hP
        · rw [if_neg htag] at hproc
          by_cases htr : stripNs e.tag = "trace"
          · rw [if_pos htr] at hproc
            cases htxt : e.text with
            | none => rw [htxt] at hproc; cases hproc
            | some txt =>
              rw [htxt] at hproc
              dsimp only at hproc
              rcases hres : (splitOnP (fun ch => ch = ',') txt.toList).foldl
                  procSeg ([], [], []) with ⟨sx, sy, stt⟩
              rw [hres] at hproc
              dsimp only at hproc
              by_cases hguard : (!sx.isEmpty && !sy.isEmpty && !stt.isEmpty) = true
              · rw [if_pos hguard] at hproc
                by_cases hlen : sx.length = sy.length ∧ sy.length = stt.length
                · rw [if_pos hlen] at hproc
                  cases hproc
                  intro s3 hs3
                  rcases List.mem_append.mp hs3 with h3 | h3
                  · exact hP s3 h3
                  · rcases List.mem_singleton.mp h3 with rfl
                    refine ⟨hlen.1, hlen.2, ?_⟩
                    simp only [Bool.and_eq_true, Bool.not_eq_true'] at hguard
                    exact List.isEmpty_eq_false.mp hguard.1.1
                · rw [if_neg hlen] at hproc; cases hproc
              · rw [if_neg hguard] at hproc
                cases hproc
                exact hP
          · rw [if_neg htr] at hproc
            cases hproc
            exact hP
  · intro st e txt htag htxt hsegs
    obtain ⟨strokes, annots⟩ := st
    unfold procElem
    dsimp only
    have hnotann : ¬ stripNs e.tag = "annotation" := by rw [htag]; decide
    have hstt := foldl_procSeg_t_none _ hsegs (([], [], []) : SegState)
    rcases hres : (splitOnP (fun ch => ch = ',') txt.toList).foldl
        procSeg ([], [], []) with ⟨sx, sy, stt⟩
    rw [hres] at hstt
    simp only at hstt
    rw [if_neg hnotann, if_pos htag, htxt]
    dsimp only
    rw [hres]
    dsimp only
    rw [hstt]
    simp

/-- Witness for C6: the document with traces `"1 2 3,bad"` (one surviving
point) and the all-malformed trace `"bad"`. -/
theorem read_inkml_stroke_invariant_witness :
    ((⟨[1], [2], [3]⟩ : Stroke).x.length = (⟨[1], [2], [3]⟩ : Stroke).y.length ∧
      (⟨[1], [2], [3]⟩ : Stroke).y.length = (⟨[1], [2], [3]⟩ : Stroke).t.length ∧
      (⟨[1], [2], [3]⟩ : Stroke).x ≠ []) ∧
    procElem ([], []) ⟨"trace", [], some "bad"⟩ = .ok ([], []) := by
  constructor
  · exact read_inkml_stroke_invariant.1 [⟨"trace", [], some "1 2 3,bad"⟩]
      ⟨[⟨[1], [2], [3]⟩], []⟩ (by decide) ⟨[1], [2], [3]⟩ (by decide)
  · exact read_inkml_stroke_invariant.2 ([], []) ⟨"trace", [], some "bad"⟩ "bad"
      (by decide) rfl (by decide)

/-- Claim C5 (evaluation at the failing input): a well-formed document
with one trace element whose text contains the well-formed point
`"1 2 3"` followed by the segment `"4 bad 5"` does not yield a 1-stroke
ink: the point loop appends `float('4')` to `stroke_x` before
`float('bad')` fails, leaving ragged rows, and `np.array` raises
`ValueError`.  A document with the same single well-formed point and only
cleanly rejected segments does produce the one expected stroke. -/
theorem read_inkml_stroke_count_failure :
    readInkmlRoot [⟨"trace", [], some "1 2 3,4 bad 5"⟩] = .error .valueError ∧
    readInkmlRoot [⟨"trace", [], some "1 2 3,bad"⟩] =
      .ok ⟨[⟨[1], [2], [3]⟩], []⟩ := by
  exact ⟨by decide, by decide⟩

/-- Claim C7 (evaluation at the failing input): parsing a path that holds
a well-formed document whose trace element has no text content crashes
with `AttributeError` (`None.split(',')`) — a fatal error that is neither
the "file not found" nor the "malformed document" kind — while a missing
path does signal "file not found". -/
theorem read_inkml_file_errors :
    read_inkml_file fsC7 "sample.inkml" = .error .attributeError ∧
    read_inkml_file fsC7 "missing.inkml" = .error .fileNotFound := by
  exact ⟨by decide, by decide⟩

/-- Counterexample to claim C9 as stated: an annotation element with a
`type` attribute but no text stores the null value `none` under the key
`"label"`, and an annotation element without a `type` attribute stores a
binding under the null key `none` — the mapping does contain null
placeholders. -/
theorem annotations_null_counterexample :
    readInkmlRoot [⟨"annotation", [("type", "label")], none⟩] =
      .ok ⟨[], [(some "label", none)]⟩ ∧
    readInkmlRoot [⟨"annotation", [], some "x"⟩] =
      .ok ⟨[], [(none, some "x")]⟩ := by
  exact ⟨by decide, by decide⟩

/-- Claim C9 (amended): in every ink produced by the trace parser from a
well-formed document in which every annotation element carries a `type`
attribute and has text content, every binding of the annotations mapping
has a non-null string key and a non-null string value, and every binding
present comes from some annotation element of the document (absent keys
do not appear). -/
theorem annotations_strings (elems : List XElem) (ink : Ink)
    (hok : readInkmlRoot elems = .ok ink)
    (hann : ∀ e ∈ elems, stripNs e.tag = "annotation" →
      (attribGet e.attrib "type").isSome ∧ e.text.isSome) :
    ∀ kv ∈ ink.annotations, kv.1 ≠ none ∧ kv.2 ≠ none ∧
      ∃ e ∈ elems, stripNs e.tag = "annotation" ∧
        attribGet e.attrib "type" = kv.1 ∧ e.text = kv.2 := by
  unfold readInkmlRoot at hok
  cases hfold : elems.foldlM procElem (([], []) : ParserState) with
  | error e => rw [hfold] at hok; cases hok
  | ok stf =>
    rw [hfold] at hok
    obtain ⟨strokes, annots⟩ := stf
    cases hok
    refine foldlM_procElem_inv (P := fun st => ∀ kv ∈ st.2,
        kv.1 ≠ none ∧ kv.2 ≠ none ∧
        ∃ e ∈ elems, stripNs e.tag = "annotation" ∧
          attribGet e.attrib "type" = kv.1 ∧ e.text = kv.2)
      elems ([], []) (strokes, annots) hfold ?_ ?_
    · intro kv hkv; cases hkv
    · intro s1 e s2 hmem hproc hP
      obtain ⟨strokes1, annots1⟩ := s1
      unfold procElem at hproc
      dsimp only at hproc
      by_cases htag : stripNs e.tag = "annotation"
      · rw [if_pos htag] at hproc
        cases hproc
        intro kv hkv
        rcases dictInsert_mem annots1 _ _ kv hkv with hkv1 | hkv1
        · obtain ⟨hk, hv⟩ := hann e hmem htag
          rw [hkv1]
          exact ⟨Option.isSome_iff_ne_none.mp hk, Option.isSome_iff_ne_none.mp hv,
            e, hmem, htag, rfl, rfl⟩
        · exact hP kv hkv1
      · rw [if_neg htag] at hproc
        by_cases htr : stripNs e.tag = "trace"
        · rw [if_pos htr] at hproc
          cases htxt : e.text with
          | none => rw [htxt] at hproc; cases hproc
          | some txt =>
            rw [htxt] at hproc
            dsimp only at hproc
            rcases hres : (splitOnP (fun ch => ch = ',') txt.toList).foldl
                procSeg ([], [], []) with ⟨sx, sy, stt⟩
            rw [hres] at hproc
            dsimp only at hproc
            by_cases hguard : (!sx.isEmpty && !sy.isEmpty && !stt.isEmpty) = true
            · rw [if_pos hguard] at hproc
              by_cases hlen : sx.length = sy.length ∧ sy.length = stt.length
              · rw [if_pos hlen] at hproc
                cases hproc
                exact hP
              · rw [if_neg hlen] at hproc; cases hproc
            · rw [if_neg hguard] at hproc
              cases hproc
              exact hP
        · rw [if_neg htr] at hproc
          cases hproc
          exact hP

/-- Witness for C9 (amended) on a one-annotation document with a `type`
attribute and nonempty text. -/
theorem annotations_strings_witness :
    ((some "label" : Option String), (some "x" : Option String)).1 ≠ none ∧
    ((some "label" : Option String), (some "x" : Option String)).2 ≠ none ∧
    ∃ e ∈ [(⟨"annotation", [("type", "label")], some "x"⟩ : XElem)],
      stripNs e.tag = "annotation" ∧
      attribGet e.attrib "type" =
        ((some "label" : Option String), (some "x" : Option String)).1 ∧
      e.text = ((some "label" : Option String), (some "x" : Option String)).2 :=
  annotations_strings [⟨"annotation", [("type", "label")], some "x"⟩]
    ⟨[], [(some "label", some "x")]⟩ (by decide) (by decide)
    (some "label", some "x") (by decide)

/-- Counterexample to claim C3 as stated: (i) on the trace text
`"1  2 3"` (two spaces), splitting on whitespace gives exactly three
numeric tokens, so the claim predicts the 1-point stroke `(1,2,3)`, but
the code splits on single spaces, gets four parts, and skips the point —
the trace yields no stroke; (ii) on `"1 bad 2,3 4 5"` the claim predicts
that exactly the malformed point is skipped (stroke `[(3,4,5)]`, no error
raised), but the code appends `float('1')` to `stroke_x` before
`float('bad')` fails and then crashes in `np.array` with `ValueError`. -/
theorem point_tolerance_counterexample :
    specStrokeOfTrace "1  2 3".toList = some ⟨[1], [2], [3]⟩ ∧
    readInkmlRoot [⟨"trace", [], some "1  2 3"⟩] = .ok ⟨[], []⟩ ∧
    specStrokeOfTrace "1 bad 2,3 4 5".toList = some ⟨[3], [4], [5]⟩ ∧
    readInkmlRoot [⟨"trace", [], some "1 bad 2,3 4 5"⟩] = .error .valueError := by
  exact ⟨by decide, by decide, by decide, by decide⟩

/-- Claim C3 (amended): each comma-separated segment of a trace element's
text is split on single space characters; a segment that does not yield
exactly three parts, or whose first part does not parse as a float, is
skipped with no effect; when all three parts parse, the point is appended
to the three rows; when the first part parses but a later one does not,
the already-parsed prefix is still appended to the corresponding rows.
In particular `"1 2 3,bad,4 5 6"` parses to the 2-point stroke
`[(1,2,3), (4,5,6)]`. -/
theorem read_inkml_point_tolerance :
    (∀ (s : SegState) (seg : List Char) (xv yv tv : ℚ),
      pointOfSeg seg = some (xv, yv, tv) →
      procSeg s seg = (s.1 ++ [xv], s.2.1 ++ [yv], s.2.2 ++ [tv])) ∧
    (∀ (s : SegState) (seg : List Char),
      (∀ xs ys ts : List Char, splitOnP (fun ch => ch = ' ') seg ≠ [xs, ys, ts]) →
      procSeg s seg = s) ∧
    (∀ (s : SegState) (seg : List Char) (xs ys ts : List Char),
      splitOnP (fun ch => ch = ' ') seg = [xs, ys, ts] → parseFloat xs = none →
      procSeg s seg = s) ∧
    (∀ (s : SegState) (seg : List Char) (xs ys ts : List Char) (xv : ℚ),
      splitOnP (fun ch => ch = ' ') seg = [xs, ys, ts] → parseFloat xs = some xv →
      parseFloat ys = none → procSeg s seg = (s.1 ++ [xv], s.2.1, s.2.2)) ∧
    (∀ (s : SegState) (seg : List Char) (xs ys ts : List Char) (xv yv : ℚ),
      splitOnP (fun ch => ch = ' ') seg = [xs, ys, ts] → parseFloat xs = some xv →
      parseFloat ys = some yv → parseFloat ts = none →
      procSeg s seg = (s.1 ++ [xv], s.2.1 ++ [yv], s.2.2)) ∧
    readInkmlRoot [⟨"trace", [], some "1 2 3,bad,4 5 6"⟩] =
      .ok ⟨[⟨[1, 4], [2, 5], [3, 6]⟩], []⟩ := by
  refine ⟨?_, ?_, ?_, ?_, ?_, by decide⟩
  · intro s seg xv yv tv hp
    obtain ⟨sx, sy, st⟩ := s
    unfold pointOfSeg at hp
    unfold procSeg
    split at hp
    next xs ys ts heq =>
      dsimp only
      cases hx : parseFloat xs with
      | none => rw [hx] at hp; simp at hp
      | some xv2 =>
        rw [hx] at hp
        dsimp only
        cases hy : parseFloat ys with
        | none => rw [hy] at hp; simp at hp
        | some yv2 =>
          rw [hy] at hp
          dsimp only
          cases ht : parseFloat ts with
          | none => rw [ht] at hp; simp at hp
          | some tv2 =>
            rw [ht] at hp
            simp only [Option.some.injEq, Prod.mk.injEq] at hp
            obtain ⟨h1, h2, h3⟩ := hp
            subst h1
            subst h2
            subst h3
            rfl
    next => cases hp
  · intro s seg hne
    obtain ⟨sx, sy, st⟩ := s
    unfold procSeg
    dsimp only
    split
    next xs ys ts heq => exact absurd heq (hne xs ys ts)
    next => rfl
  · intro s seg xs ys ts heq hx
    obtain ⟨sx, sy, st⟩ := s
    unfold procSeg
    dsimp only
    rw [heq]
    dsimp only
    rw [hx]
  · intro s seg xs ys ts xv heq hx hy
    obtain ⟨sx, sy, st⟩ := s
    unfold procSeg
    dsimp only
    rw [heq]
    dsimp only
    rw [hx, hy]
  · intro s seg xs ys ts xv yv heq hx hy ht
    obtain ⟨sx, sy, st⟩ := s
    unfold procSeg
    dsimp only
    rw [heq]
    dsimp only
    rw [hx, hy, ht]

/-- Witness for C3 (amended): the segment `"7 8 9"` is appended whole;
the segment `"1 bad 2"` appends only the parsed `x` prefix. -/
theorem read_inkml_point_tolerance_witness :
    procSeg ([], [], []) "7 8 9".toList = ([7], [8], [9]) ∧
    procSeg ([], [], []) "1 bad 2".toList = ([1], [], []) := by
  constructor
  · exact read_inkml_point_tolerance.1 ([], [], []) "7 8 9".toList 7 8 9 (by decide)
  · exact read_inkml_point_tolerance.2.2.2.1 ([], [], []) "1 bad 2".toList
      "1".toList "bad".toList "2".toList 1 (by decide) (by decide) (by decide)
